import Mathlib

/-!
Verification of the RF/antenna calculation engine of `rf_antenna_gui_v3.py`.

The engine's numeric routines are embedded shallowly: Python floats become
real numbers (`ℝ`) where transcendental functions (`log10`, `sqrt`, `10**x`)
appear, and rationals (`ℚ`) for the purely arithmetic attenuation-table
interpolator; Python `complex` becomes `ℂ`; a `raise ValueError` becomes
`Except.error` with the source's message string; Python dictionaries become
association lists with distinct keys, and `sorted` over distinct keys is
modelled by a structurally recursive insertion sort.
-/

/-! ## Attenuation-table interpolator (`coax_loss_db_per_100ft`) -/

/-- Insert a frequency/loss pair into a list sorted by frequency key. -/
def insertSorted (p : ℚ × ℚ) : List (ℚ × ℚ) → List (ℚ × ℚ)
  | [] => [p]
  | q :: rest => if p.1 ≤ q.1 then p :: q :: rest else q :: insertSorted p rest

/-- Model of Python `sorted(points.keys())` applied to the key/value pairs of a
dictionary (keys are distinct, so any comparison sort agrees with this
insertion sort). -/
def sortPoints : List (ℚ × ℚ) → List (ℚ × ℚ)
  | [] => []
  | p :: rest => insertSorted p (sortPoints rest)

/-- The interior scan of `coax_loss_db_per_100ft`: walk consecutive key pairs
`(f1, f2)` and return the linear interpolation at the first pair bracketing
the query frequency, mirroring the `for i in range(len(freqs) - 1)` loop. -/
def interpPoints : List (ℚ × ℚ) → ℚ → Option ℚ
  | p :: q :: rest, f =>
      if p.1 ≤ f ∧ f ≤ q.1 then
        some (p.2 + (f - p.1) / (q.1 - p.1) * (q.2 - p.2))
      else interpPoints (q :: rest) f
  | _, _ => none

/-- Body of `coax_loss_db_per_100ft` once the coax type's point table has been
found: sort the keys, clamp below the minimum and above the maximum key, and
otherwise interpolate; the trailing `return points[freqs[-1]]` fallback of the
source is the `Option.getD` default. -/
def coax_loss_points (pts : List (ℚ × ℚ)) (f : ℚ) : ℚ :=
  match sortPoints pts with
  | [] => 0
  | p0 :: rest =>
      if f ≤ p0.1 then p0.2
      else
        let lastP := (p0 :: rest).getLast (List.cons_ne_nil _ _)
        if lastP.1 ≤ f then lastP.2
        else (interpPoints (p0 :: rest) f).getD lastP.2

/-- Model of `coax_loss_db_per_100ft(coax_type, freq_mhz)`: a missing coax type, or one
with an empty point table, yields `0.0` (`if not points: return 0.0`). -/
def coax_loss_db_per_100ft (db : List (String × List (ℚ × ℚ))) (coax_type : String)
    (freq_mhz : ℚ) : ℚ :=
  match db.lookup coax_type with
  | none => 0
  | some pts => if pts = [] then 0 else coax_loss_points pts freq_mhz

/-- The `COAX_DB` reference table (dB per 100 ft, indexed by MHz). -/
def COAX_DB : List (String × List (ℚ × ℚ)) :=
  [ ("RG-58",   [(50, 1.9), (150, 3.8), (450, 7.0), (900, 10.3), (1500, 13.5)]),
    ("RG-213",  [(50, 0.7), (150, 1.4), (450, 2.6), (900, 3.9), (1500, 5.1)]),
    ("LMR-240", [(50, 0.6), (150, 1.3), (450, 2.7), (900, 4.1), (1500, 5.4)]),
    ("LMR-400", [(50, 0.3), (150, 0.7), (450, 1.5), (900, 2.3), (1500, 3.0)]),
    ("LMR-600", [(50, 0.2), (150, 0.5), (450, 1.1), (900, 1.7), (1500, 2.2)]) ]

/-- Keys of a point table are strictly ascending (true of any Python dict
after `sorted`, since dict keys are distinct). -/
def keySorted (pts : List (ℚ × ℚ)) : Prop :=
  List.Chain' (fun a b => a.1 < b.1) pts

/-! ## RF math: free-space path loss and wavelength -/

open Classical in
/-- Model of `fspl(distanceKm, freqMhz)`. -/
noncomputable def fspl (distanceKm freqMhz : ℝ) : Except String ℝ :=
  if distanceKm ≤ 0 ∨ freqMhz ≤ 0 then
    .error "Distance and frequency must be positive."
  else
    .ok (20 * Real.logb 10 distanceKm + 20 * Real.logb 10 freqMhz + 32.44)

open Classical in
/-- Model of `yagiLengths(lam, elements, vf)` returning
`(reflector, driven, directors)`. -/
noncomputable def yagiLengths (lam : ℝ) (elements : ℕ) (vf : ℝ) : ℝ × ℝ × List ℝ :=
  (lam * 0.53 * vf, lam * 0.50 * vf,
   if 3 ≤ elements then
     (List.range (elements - 2)).map (fun i =>
       let frac := 0.48 - 0.01 * (i : ℝ)
       lam * (if frac < 0.44 then 0.44 else frac) * vf)
   else [])

/-- Model of `yagiSpacing(lam, elements)` returning `(spacings, sum(spacings))`. -/
noncomputable def yagiSpacing (lam : ℝ) (elements : ℕ) :
    Except String (List ℝ × ℝ) :=
  if elements < 3 then .error "Yagi requires at least 3 elements."
  else
    let spacings := 0.20 * lam :: 0.15 * lam ::
      (List.range (elements - 3)).map (fun _ => 0.15 * lam)
    .ok (spacings, spacings.sum)

/-! ## Friis cascade (`calculate_friis`) -/

/-- One row of the Friis stage table: gain (dB), noise figure (dB), noise
temperature (K), and the flag selecting temperature over noise figure. -/
structure NoiseStage where
  g_db : ℝ
  nf_db : ℝ
  t_k : ℝ
  use_t : Bool

instance : Inhabited NoiseStage := ⟨⟨0, 0, 0, false⟩⟩

/-- Per-stage linear gain `10**(g/10.0)`. -/
noncomputable def stageGain (s : NoiseStage) : ℝ := (10 : ℝ) ^ (s.g_db / 10)

/-- Per-stage noise factor: `1.0 + t_k/290.0` when the temperature flag is
set, else `10**(nf_db/10.0)`. -/
noncomputable def stageF (s : NoiseStage) : ℝ :=
  if s.use_t then 1 + s.t_k / 290 else (10 : ℝ) ^ (s.nf_db / 10)

/-- The accumulation loop of `calculate_friis`: `gain_prod` is the running
product of preceding linear gains, `prevG` the linear gain of the stage just
processed; each step does `gain_prod *= G[i-1]` then adds
`(F[i] - 1.0) / gain_prod`. -/
noncomputable def friisGo (gain_prod prevG : ℝ) : List NoiseStage → ℝ
  | [] => 0
  | s :: rest =>
      (stageF s - 1) / (gain_prod * prevG) +
        friisGo (gain_prod * prevG) (stageGain s) rest

/-- Model of `calculate_friis` reduced to its engine content: the total noise factor
`F_total`, or the domain error on an empty stage list. -/
noncomputable def calculate_friis : List NoiseStage → Except String ℝ
  | [] => .error "Add at least one stage."
  | s :: rest => .ok (stageF s + friisGo 1 (stageGain s) rest)

/-- Modelled from the spec: the closed-form Friis formula
`F_total = F_1 + Σ_{i=2..n} (F_i − 1) / Π_{j=1..i−1} G_j`, written with
0-based indexing (`k = i − 2`). -/
noncomputable def friisSpecTotal : List NoiseStage → ℝ
  | [] => 0
  | s0 :: rest =>
      stageF s0 + ((List.range rest.length).map (fun k =>
        (stageF (rest.getD k default) - 1) /
          (((s0 :: rest).take (k + 1)).map stageGain).prod)).sum

/-! ## Fresnel zone (`calculate_fresnel`) -/

/-- Python `complex(R, X)`. -/
noncomputable def mkC (R X : ℝ) : ℂ := (R : ℂ) + (X : ℂ) * Complex.I

/-- The reactance-cancellation note of `suggest_l_match`. -/
inductive CancelNote where
  | seriesCap
  | seriesInd
  | noCancel
deriving DecidableEq

/-- Structured content of the string returned by `suggest_l_match`: the
`"Invalid R."` message, a low-pass L (series L, shunt C), a high-pass L
(series C, shunt L), or the already-matched note. -/
inductive MatchSuggestion where
  | invalidR
  | lowPass (cancel : CancelNote) (Ls Cp Q : ℝ)
  | highPass (cancel : CancelNote) (Cs Lp Q : ℝ)
  | matched (cancel : CancelNote)

open Classical in
/-- Model of `suggest_l_match(R, X, Z0, freq_mhz)`. Note that `R <= 0` RETURNS the
`"Invalid R."` text; it does not raise. The component-value divisions do
raise, however: in the low-pass branch `Ls = Xs/(2*pi*f)` is Python's float
division by zero when `2*pi*f` is zero (i.e. at frequency 0), and in the
high-pass branch `Q = sqrt(R/Z0 - 1)` raises float division by zero at
`Z0 = 0`, `math.sqrt` raises a math domain error on a negative argument
(`Z0 < 0`), and `Cs = 1/(2*pi*f*Xs)` raises float division by zero at
frequency 0 (there `Xs > 0`, so `2*pi*f` is the vanishing factor); each
raise is modelled as `Except.error`, in the source's evaluation order. -/
noncomputable def suggest_l_match (R X Z0 freq_mhz : ℝ) :
    Except String MatchSuggestion :=
  let f := freq_mhz * 1e6
  if R ≤ 0 then .ok .invalidR
  else
    let cancel := if 1e-6 < |X| then
        (if 0 < X then CancelNote.seriesCap else CancelNote.seriesInd)
      else CancelNote.noCancel
    if R < Z0 then
      let Q := Real.sqrt (Z0 / R - 1)
      let Xs := Q * R
      let Xp := Z0 / Q
      if 2 * Real.pi * f = 0 then .error "float division by zero"
      else .ok (.lowPass cancel (Xs / (2 * Real.pi * f))
        (1 / (2 * Real.pi * f * Xp)) Q)
    else if Z0 < R then
      if Z0 = 0 then .error "float division by zero"
      else if R / Z0 - 1 < 0 then .error "math domain error"
      else
        let Q := Real.sqrt (R / Z0 - 1)
        let Xs := Q * Z0
        let Xp := R / Q
        if 2 * Real.pi * f = 0 then .error "float division by zero"
        else .ok (.highPass cancel (1 / (2 * Real.pi * f * Xs))
          (Xp / (2 * Real.pi * f)) Q)
    else .ok (.matched cancel)

/-- SWR as reported by `calculate_smith`: a finite value, or the
`float("inf")` sentinel. -/
inductive Swr where
  | finite (value : ℝ)
  | infinite

/-- The source's `gamma = (ZL - Z0) / (ZL + Z0)`. -/
noncomputable def gammaOf (R X Z0 : ℝ) : ℂ :=
  (mkC R X - (Z0 : ℂ)) / (mkC R X + (Z0 : ℂ))

/-- The source's `mag = abs(gamma)`. -/
noncomputable def magOf (R X Z0 : ℝ) : ℝ := Complex.abs (gammaOf R X Z0)

open Classical in
/-- The source's `swr = (1 + mag) / (1 - mag) if mag < 1 else float("inf")`. -/
noncomputable def swrOf (R X Z0 : ℝ) : Swr :=
  if magOf R X Z0 < 1 then .finite ((1 + magOf R X Z0) / (1 - magOf R X Z0))
  else .infinite

/-- Result record of `calculate_smith`. -/
structure SmithResult where
  gamma : ℂ
  mag : ℝ
  swr : Swr
  matchText : MatchSuggestion

open Classical in
/-- Model of `calculate_smith(R, X, Z0, f_mhz)`: Python's complex division raises
`ZeroDivisionError` exactly when the denominator `ZL + Z0` is zero, and the
surrounding `try` also surfaces any error raised inside `suggest_l_match`
(the frequency-zero and `Z0 ≤ 0` divisions); only when both succeed does the
calculation complete with Γ, |Γ|, SWR and the L-match suggestion. -/
noncomputable def calculate_smith (R X Z0 f_mhz : ℝ) :
    Except String SmithResult :=
  if mkC R X + (Z0 : ℂ) = 0 then .error "complex division by zero"
  else
    match suggest_l_match R X Z0 f_mhz with
    | .error e => .error e
    | .ok m => .ok ⟨gammaOf R X Z0, magOf R X Z0, swrOf R X Z0, m⟩

/-- C4: `fspl` returns `20·log10(d) + 20·log10(f) + 32.44` for positive
inputs, equals `32.44` at `(1, 1)`, and fails with the domain error
"Distance and frequency must be positive." when either input is
non-positive. -/
theorem c4_fspl_formula_and_domain :
    (∀ d f : ℝ, 0 < d → 0 < f →
      fspl d f = .ok (20 * Real.logb 10 d + 20 * Real.logb 10 f + 32.44))
    ∧ fspl 1 1 = .ok 32.44
    ∧ (∀ d f : ℝ, d ≤ 0 ∨ f ≤ 0 →
      fspl d f = .error "Distance and frequency must be positive.") := by
  refine ⟨fun d f hd hf => ?_, ?_, fun d f h => ?_⟩
  · rw [fspl, if_neg (by push_neg; exact ⟨hd, hf⟩)]
  · rw [fspl, if_neg (by norm_num)]
    norm_num [Real.logb_one]
  · rw [fspl, if_pos h]

/-- Witness for C4 at `d = 2`, `f = 5`. -/
theorem c4_witness :
    fspl 2 5 = .ok (20 * Real.logb 10 2 + 20 * Real.logb 10 5 + 32.44) :=
  c4_fspl_formula_and_domain.1 2 5 (by norm_num) (by norm_num)

/-- C8: for any wavelength `λ > 0` and velocity factor, a 3-element Yagi has
exactly one director, of unclamped length `0.48·λ·vf`, and boom length
`0.35·λ`; fewer than 3 elements makes `yagiSpacing` fail with the domain
error. -/
theorem c8_yagi_three_elements (lam vf : ℝ) (hlam : 0 < lam) :
    (yagiLengths lam 3 vf).2.2 = [lam * 0.48 * vf]
    ∧ yagiSpacing lam 3 = .ok ([0.20 * lam, 0.15 * lam], 0.35 * lam)
    ∧ (∀ n : ℕ, n < 3 →
        yagiSpacing lam n = .error "Yagi requires at least 3 elements.") := by
  refine ⟨?_, ?_, fun n hn => ?_⟩
  · rw [yagiLengths]
    norm_num [List.range_succ]
  · rw [yagiSpacing, if_neg (by norm_num)]
    norm_num [List.range_zero]
    ring
  · rw [yagiSpacing, if_pos hn]

/-- Witness for C8 at `λ = 2`, `vf = 1`. -/
theorem c8_witness :
    (yagiLengths 2 3 1).2.2 = [2 * 0.48 * 1]
    ∧ yagiSpacing 2 3 = .ok ([0.20 * 2, 0.15 * 2], 0.35 * 2) :=
  ⟨(c8_yagi_three_elements 2 1 (by norm_num)).1,
   (c8_yagi_three_elements 2 1 (by norm_num)).2.1⟩

/-- C9: the reflection-coefficient division has no guard, so the load
`R = −Z0`, `X = 0` (e.g. `R = −50`, `Z0 = 50`) makes `calculate_smith` fail
with Python's division-by-zero error instead of returning a result or the
infinite SWR sentinel. -/
theorem c9_gamma_division_by_zero :
    (∀ Z0 f : ℝ,
      calculate_smith (-Z0) 0 Z0 f = .error "complex division by zero")
    ∧ calculate_smith (-50) 0 50 1 = .error "complex division by zero" := by
  have key : ∀ Z0 f : ℝ,
      calculate_smith (-Z0) 0 Z0 f = .error "complex division by zero" := by
    intro Z0 f
    rw [calculate_smith, if_pos]
    simp [mkC]
  exact ⟨key, by have := key 50 1; simpa using this⟩

/-- Helper: `complex(R, 0)` is the real `R`. -/
theorem mkC_real (R : ℝ) : mkC R 0 = (R : ℂ) := by
  simp [mkC]

/-- Helper: with a nonzero reflection denominator and a successful L-match
suggestion, `calculate_smith` completes with Γ, |Γ|, SWR and that
suggestion. -/
theorem calculate_smith_ok (R X Z0 f : ℝ) (hden : mkC R X + (Z0 : ℂ) ≠ 0)
    (m : MatchSuggestion) (hs : suggest_l_match R X Z0 f = .ok m) :
    calculate_smith R X Z0 f =
      .ok ⟨gammaOf R X Z0, magOf R X Z0, swrOf R X Z0, m⟩ := by
  rw [calculate_smith, if_neg hden, hs]

/-- Helper: an error raised inside `suggest_l_match` is surfaced by
`calculate_smith` (when the reflection division itself succeeded). -/
theorem calculate_smith_err (R X Z0 f : ℝ) (hden : mkC R X + (Z0 : ℂ) ≠ 0)
    (e : String) (hs : suggest_l_match R X Z0 f = .error e) :
    calculate_smith R X Z0 f = .error e := by
  rw [calculate_smith, if_neg hden, hs]

/-- C1 counterexample: at `R = 0 ≤ 0` (with `X = 0`, `Z0 = 50`)
`suggest_l_match` RETURNS the `"Invalid R."` message and `calculate_smith`
COMPLETES SUCCESSFULLY with that message in its result — no domain error is
raised. -/
theorem c1_counterexample :
    calculate_smith 0 0 50 1 =
      .ok ⟨-1, 1, Swr.infinite, MatchSuggestion.invalidR⟩
    ∧ ∀ e : String, calculate_smith 0 0 50 1 ≠ Except.error e := by
  have hok : calculate_smith 0 0 50 1 =
      .ok ⟨-1, 1, Swr.infinite, MatchSuggestion.invalidR⟩ := by
    have hden : mkC 0 0 + (50 : ℝ) ≠ (0 : ℂ) := by
      rw [mkC_real]
      norm_num
    have hs : suggest_l_match 0 0 50 1 = .ok MatchSuggestion.invalidR := by
      rw [suggest_l_match, if_pos le_rfl]
    have hg : gammaOf 0 0 50 = -1 := by
      rw [gammaOf, mkC_real]
      norm_num
    have hm : magOf 0 0 50 = 1 := by
      rw [magOf, hg]
      simp
    rw [calculate_smith_ok 0 0 50 1 hden MatchSuggestion.invalidR hs, hg, hm]
    rw [swrOf, hm, if_neg (by norm_num)]
  exact ⟨hok, fun e he => by rw [hok] at he; exact Except.noConfusion he⟩

/-- C1 amended: for every load with `R ≤ 0`, `suggest_l_match` returns the
`"Invalid R."` message instead of raising a domain error, and whenever the
reflection denominator is nonzero the surrounding `calculate_smith`
completes successfully, embedding that message in its result. -/
theorem c1_amended_invalid_r_is_message (R X Z0 f : ℝ) (hR : R ≤ 0) :
    suggest_l_match R X Z0 f = .ok MatchSuggestion.invalidR
    ∧ (mkC R X + (Z0 : ℂ) ≠ 0 →
        calculate_smith R X Z0 f =
          .ok ⟨gammaOf R X Z0, magOf R X Z0, swrOf R X Z0,
               MatchSuggestion.invalidR⟩) := by
  have hs : suggest_l_match R X Z0 f = .ok MatchSuggestion.invalidR := by
    rw [suggest_l_match, if_pos hR]
  exact ⟨hs, fun hden =>
    calculate_smith_ok R X Z0 f hden MatchSuggestion.invalidR hs⟩

/-- Witness for the amended C1 at `R = −5`, `X = 0`, `Z0 = 50`. -/
theorem c1_witness :
    suggest_l_match (-5) 0 50 1 = .ok MatchSuggestion.invalidR
    ∧ calculate_smith (-5) 0 50 1 =
        .ok ⟨gammaOf (-5) 0 50, magOf (-5) 0 50, swrOf (-5) 0 50,
             MatchSuggestion.invalidR⟩ := by
  have h := c1_amended_invalid_r_is_message (-5) 0 50 1 (by norm_num)
  exact ⟨h.1, h.2 (by rw [mkC_real]; norm_num)⟩

/-- C5 counterexample: at the claim's own featured load `R = 25`, `X = 0`,
`Z0 = 50` — whose reflection denominator `75` is nonzero — a query at
frequency 0 makes the source raise `ZeroDivisionError` inside
`suggest_l_match` (`Ls = Xs/(2*pi*f)` with `f = 0`), so the calculation
fails and reports neither `|Γ|` nor SWR, against the claim's "reports …
(not a failure)". -/
theorem c5_counterexample :
    calculate_smith 25 0 50 0 = .error "float division by zero"
    ∧ mkC 25 0 + ((50 : ℝ) : ℂ) ≠ 0 := by
  have hden : mkC 25 0 + ((50 : ℝ) : ℂ) ≠ 0 := by
    rw [mkC_real]
    norm_num
  have hs : suggest_l_match 25 0 50 0 = .error "float division by zero" := by
    rw [suggest_l_match, if_neg (by norm_num : ¬(25 : ℝ) ≤ 0),
      if_pos (by norm_num : (25 : ℝ) < 50),
      if_pos (by norm_num : 2 * Real.pi * ((0 : ℝ) * 1e6) = 0)]
  exact ⟨calculate_smith_err 25 0 50 0 hden _ hs, hden⟩

/-- C5 amended: with a nonzero denominator `ZL + Z0`, `calculate_smith`
computes `Γ = (ZL − Z0)/(ZL + Z0)` and, whenever the L-match synthesis does
not itself fail, reports SWR `(1+|Γ|)/(1−|Γ|)` when `|Γ| < 1` and the
infinite sentinel when `|Γ| ≥ 1`, while an error raised inside the synthesis
(frequency 0 with `0 < R ≠ Z0`) is surfaced instead of a report; at
`R = 25`, `X = 0`, `Z0 = 50` it reports `|Γ| = 1/3` and `SWR = 2` exactly,
at every nonzero frequency. -/
theorem c5_amended_gamma_swr :
    (∀ (R X Z0 f : ℝ) (m : MatchSuggestion), mkC R X + (Z0 : ℂ) ≠ 0 →
      suggest_l_match R X Z0 f = .ok m →
      calculate_smith R X Z0 f =
        .ok ⟨(mkC R X - (Z0 : ℂ)) / (mkC R X + (Z0 : ℂ)), magOf R X Z0,
             swrOf R X Z0, m⟩)
    ∧ (∀ (R X Z0 f : ℝ) (e : String), mkC R X + (Z0 : ℂ) ≠ 0 →
        suggest_l_match R X Z0 f = .error e →
        calculate_smith R X Z0 f = .error e)
    ∧ (∀ R X Z0 : ℝ, magOf R X Z0 < 1 →
        swrOf R X Z0 = .finite ((1 + magOf R X Z0) / (1 - magOf R X Z0)))
    ∧ (∀ R X Z0 : ℝ, 1 ≤ magOf R X Z0 → swrOf R X Z0 = .infinite)
    ∧ magOf 25 0 50 = 1 / 3
    ∧ swrOf 25 0 50 = .finite 2
    ∧ (∀ f : ℝ, f ≠ 0 → ∃ m : MatchSuggestion,
        calculate_smith 25 0 50 f =
          .ok ⟨gammaOf 25 0 50, 1 / 3, Swr.finite 2, m⟩) := by
  have hmag : magOf 25 0 50 = 1 / 3 := by
    have hg : gammaOf 25 0 50 = (((-1 : ℝ) / 3 : ℝ) : ℂ) := by
      rw [gammaOf, mkC_real]
      push_cast
      norm_num
    rw [magOf, hg, Complex.abs_ofReal]
    rw [abs_of_nonpos (by norm_num)]
    norm_num
  have hswr : swrOf 25 0 50 = .finite 2 := by
    rw [swrOf, if_pos (by rw [hmag]; norm_num), hmag]
    norm_num
  refine ⟨fun R X Z0 f m hden hs => ?_,
    fun R X Z0 f e hden hs => calculate_smith_err R X Z0 f hden e hs,
    fun R X Z0 h => ?_, fun R X Z0 h => ?_, hmag, hswr, fun f hf => ?_⟩
  · rw [calculate_smith_ok R X Z0 f hden m hs, gammaOf]
  · rw [swrOf, if_pos h]
  · rw [swrOf, if_neg (not_lt.mpr h)]
  · have hden : mkC 25 0 + ((50 : ℝ) : ℂ) ≠ 0 := by
      rw [mkC_real]
      norm_num
    have h2pf : ¬(2 * Real.pi * (f * 1e6) = 0) := by
      intro h0
      rcases mul_eq_zero.mp h0 with h1 | h2
      · rcases mul_eq_zero.mp h1 with h3 | h4
        · norm_num at h3
        · exact Real.pi_ne_zero h4
      · rcases mul_eq_zero.mp h2 with h5 | h6
        · exact hf h5
        · norm_num at h6
    obtain ⟨m, hm⟩ : ∃ m : MatchSuggestion,
        suggest_l_match 25 0 50 f = .ok m :=
      ⟨_, by rw [suggest_l_match, if_neg (by norm_num : ¬(25 : ℝ) ≤ 0),
        if_pos (by norm_num : (25 : ℝ) < 50), if_neg h2pf]⟩
    exact ⟨m, by rw [calculate_smith_ok 25 0 50 f hden m hm, hmag, hswr]⟩

/-- Witness for the amended C5 at `R = 25`, `X = 0`, `Z0 = 50`, `f = 1`. -/
theorem c5_witness :
    (∃ m : MatchSuggestion,
      calculate_smith 25 0 50 1 =
        .ok ⟨gammaOf 25 0 50, 1 / 3, Swr.finite 2, m⟩)
    ∧ swrOf 25 0 50 =
        .finite ((1 + magOf 25 0 50) / (1 - magOf 25 0 50)) :=
  ⟨c5_amended_gamma_swr.2.2.2.2.2.2 1 (by norm_num),
   c5_amended_gamma_swr.2.2.1 25 0 50
     (by rw [c5_amended_gamma_swr.2.2.2.2.1]; norm_num)⟩

/-- The loop of `calculate_friis` in closed form: starting from an
accumulated gain product, each later stage `k` contributes its excess noise
divided by the product of all gains before it. -/
theorem friisGo_closed (rest : List NoiseStage) :
    ∀ gp pg : ℝ,
      friisGo gp pg rest =
        ((List.range rest.length).map (fun k =>
          (stageF (rest.getD k default) - 1) /
            (gp * pg * ((rest.take k).map stageGain).prod))).sum := by
  induction rest with
  | nil => intro gp pg; simp [friisGo]
  | cons s t ih =>
      intro gp pg
      rw [friisGo, ih (gp * pg) (stageGain s)]
      rw [List.length_cons, List.range_succ_eq_map]
      rw [List.map_cons, List.sum_cons, List.map_map]
      congr 1
      · simp
      · refine congrArg List.sum (List.map_congr_left fun k _ => ?_)
        simp only [Function.comp_apply, List.getD_cons_succ, List.take_succ_cons,
          List.map_cons, List.prod_cons]
        ring_nf

/-- C2: `calculate_friis` fails with its domain error on an empty stage
list; stage noise factors are `1 + T/290` under the temperature flag and
`10^(NF_dB/10)` otherwise with gains `10^(g_dB/10)`; and on any non-empty
stage list the computed total noise factor equals the spec's closed-form
Friis cascade `F_1 + Σ_{i=2..n} (F_i − 1)/Π_{j=1..i−1} G_j`. -/
theorem c2_friis_cascade :
    calculate_friis [] = .error "Add at least one stage."
    ∧ (∀ s : NoiseStage,
        stageF s = if s.use_t then 1 + s.t_k / 290
          else (10 : ℝ) ^ (s.nf_db / 10))
    ∧ (∀ s : NoiseStage, stageGain s = (10 : ℝ) ^ (s.g_db / 10))
    ∧ (∀ (s : NoiseStage) (rest : List NoiseStage),
        calculate_friis (s :: rest) = .ok (friisSpecTotal (s :: rest))) := by
  refine ⟨rfl, fun s => rfl, fun s => rfl, fun s rest => ?_⟩
  rw [calculate_friis, friisSpecTotal, friisGo_closed]
  refine congrArg _ (congrArg _ (congrArg List.sum
    (List.map_congr_left fun k _ => ?_)))
  simp only [List.take_succ_cons, List.map_cons, List.prod_cons, one_mul]

/-- C7: the Friis cascade is order-sensitive — two stages of unequal gain
(10 dB gain at 290 K, 0 dB gain at 580 K) give total noise factor `11/5` in
one order and `4` in the other. -/
theorem c7_friis_order_sensitive :
    calculate_friis [⟨10, 0, 290, true⟩, ⟨0, 0, 580, true⟩] = .ok (11 / 5)
    ∧ calculate_friis [⟨0, 0, 580, true⟩, ⟨10, 0, 290, true⟩] = .ok 4
    ∧ stageGain ⟨10, 0, 290, true⟩ ≠ stageGain ⟨0, 0, 580, true⟩
    ∧ (11 / 5 : ℝ) ≠ 4 := by
  have hg10 : stageGain ⟨10, 0, 290, true⟩ = 10 := by
    rw [stageGain]
    norm_num
  have hg0 : stageGain ⟨0, 0, 580, true⟩ = 1 := by
    rw [stageGain]
    norm_num
  have hf1 : stageF ⟨10, 0, 290, true⟩ = 2 := by
    rw [stageF]
    norm_num
  have hf2 : stageF ⟨0, 0, 580, true⟩ = 3 := by
    rw [stageF]
    norm_num
  refine ⟨?_, ?_, ?_, by norm_num⟩
  · rw [calculate_friis, friisGo, friisGo, hg10, hf1, hf2]
    norm_num
  · rw [calculate_friis, friisGo, friisGo, hg0, hf1, hf2]
    norm_num
  · rw [hg10, hg0]
    norm_num

/-- Inserting below the head of a weakly key-sorted list keeps it intact, so
an already-sorted table passes through `sortPoints` unchanged. -/
theorem sortPoints_of_sorted :
    ∀ pts : List (ℚ × ℚ), List.Chain' (fun a b => a.1 ≤ b.1) pts →
      sortPoints pts = pts := by
  intro pts
  induction pts with
  | nil => intro _; rfl
  | cons p rest ih =>
      intro h
      obtain ⟨hhead, htail⟩ := List.chain'_cons'.mp h
      rw [sortPoints, ih htail]
      cases rest with
      | nil => rfl
      | cons q t =>
          rw [insertSorted, if_pos (hhead q rfl)]

/-- In a strictly key-sorted list, the head's key is below every later
key. -/
theorem keySorted_head_lt :
    ∀ (rest : List (ℚ × ℚ)) (p : ℚ × ℚ), keySorted (p :: rest) →
      ∀ q ∈ rest, p.1 < q.1 := by
  intro rest
  induction rest with
  | nil => intro p _ q hq; exact absurd hq (List.not_mem_nil q)
  | cons r t ih =>
      intro p h q hq
      obtain ⟨hpr, htail⟩ := List.chain'_cons.mp h
      rcases List.mem_cons.mp hq with rfl | hq'
      · exact hpr
      · exact lt_trans hpr (ih r htail q hq')

/-- In a strictly key-sorted list, every key is at most the last key. -/
theorem keySorted_le_getLast :
    ∀ (pts : List (ℚ × ℚ)) (hne : pts ≠ []), keySorted pts →
      ∀ p ∈ pts, p.1 ≤ (pts.getLast hne).1 := by
  intro pts
  induction pts with
  | nil => intro hne; exact absurd rfl hne
  | cons p0 rest ih =>
      intro hne h p hp
      cases rest with
      | nil =>
          rcases List.mem_cons.mp hp with rfl | hp'
          · exact le_rfl
          · exact absurd hp' (List.not_mem_nil p)
      | cons r t =>
          rw [List.getLast_cons (List.cons_ne_nil r t)]
          rcases List.mem_cons.mp hp with rfl | hp'
          · exact le_of_lt (keySorted_head_lt (r :: t) p h _
              (List.getLast_mem (List.cons_ne_nil r t)))
          · exact ih (List.cons_ne_nil r t) (List.chain'_cons.mp h).2 p hp'

/-- In a strictly key-sorted list, every key in a prefix is below the key of
the element following the prefix. -/
theorem keySorted_append_lt :
    ∀ (A : List (ℚ × ℚ)) (p : ℚ × ℚ) (B : List (ℚ × ℚ)),
      keySorted (A ++ p :: B) → ∀ r ∈ A, r.1 < p.1 := by
  intro A
  induction A with
  | nil => intro p B _ r hr; exact absurd hr (List.not_mem_nil r)
  | cons a A' ih =>
      intro p B h r hr
      rcases List.mem_cons.mp hr with rfl | hr'
      · exact keySorted_head_lt (A' ++ p :: B) r h p
          (by simp [List.mem_append])
      · exact ih p B (List.chain'_cons'.mp h).2 r hr'

/-- Strictly ascending keys are injective: two entries of the table with the
same key are the same entry. -/
theorem keySorted_key_inj :
    ∀ (pts : List (ℚ × ℚ)), keySorted pts →
      ∀ a ∈ pts, ∀ b ∈ pts, a.1 = b.1 → a = b := by
  intro pts
  induction pts with
  | nil => intro _ a ha; exact absurd ha (List.not_mem_nil a)
  | cons p0 rest ih =>
      intro h a ha b hb hab
      rcases List.mem_cons.mp ha with rfl | ha' <;>
        rcases List.mem_cons.mp hb with rfl | hb'
      · rfl
      · exact absurd hab (ne_of_lt (keySorted_head_lt rest a h b hb'))
      · exact absurd hab.symm (ne_of_lt (keySorted_head_lt rest b h a ha'))
      · exact ih (List.chain'_cons'.mp h).2 a ha' b hb' hab

/-- The scan skips every pair strictly below the query and returns the
interpolation at the bracketing pair. -/
theorem interpPoints_middle :
    ∀ (A : List (ℚ × ℚ)) (p q : ℚ × ℚ) (B : List (ℚ × ℚ)) (f : ℚ),
      (∀ r ∈ A, r.1 < f) → p.1 < f → f ≤ q.1 →
      interpPoints (A ++ p :: q :: B) f =
        some (p.2 + (f - p.1) / (q.1 - p.1) * (q.2 - p.2)) := by
  intro A
  induction A with
  | nil =>
      intro p q B f _ h1 h2
      rw [List.nil_append, interpPoints, if_pos ⟨le_of_lt h1, h2⟩]
  | cons a A' ih =>
      intro p q B f hA h1 h2
      have step : interpPoints ((a :: A') ++ p :: q :: B) f =
          interpPoints (A' ++ p :: q :: B) f := by
        cases A' with
        | nil =>
            rw [List.cons_append, List.nil_append, interpPoints,
              if_neg (fun hc => absurd hc.2 (not_le.mpr h1))]
        | cons b A'' =>
            rw [List.cons_append, List.cons_append, interpPoints,
              if_neg (fun hc => absurd hc.2
                (not_le.mpr (hA b (List.mem_cons_of_mem a
                  (List.mem_cons_self b A'')))))]
      rw [step]
      exact ih p q B f (fun r hr => hA r (List.mem_cons_of_mem a hr)) h1 h2

/-- When the query lies strictly between the first and last key of a
strictly sorted table, the scan lands on a bracketing pair of table entries
and returns the interpolation between them. -/
theorem interpPoints_between (f : ℚ) :
    ∀ (pts : List (ℚ × ℚ)) (hne : pts ≠ []), keySorted pts →
      (pts.head hne).1 < f → f < (pts.getLast hne).1 →
      ∃ p ∈ pts, ∃ q ∈ pts, p.1 ≤ f ∧ f ≤ q.1 ∧ p.1 < q.1 ∧
        interpPoints pts f =
          some (p.2 + (f - p.1) / (q.1 - p.1) * (q.2 - p.2)) := by
  intro pts
  induction pts with
  | nil => intro hne; exact absurd rfl hne
  | cons p0 rest ih =>
      intro hne hs hlow hhigh
      cases rest with
      | nil =>
          exact absurd (lt_trans hlow hhigh) (lt_irrefl _)
      | cons r t =>
          have hlow' : p0.1 < f := hlow
          by_cases hfr : f ≤ r.1
          · refine ⟨p0, List.mem_cons_self _ _, r,
              List.mem_cons_of_mem _ (List.mem_cons_self _ _),
              le_of_lt hlow', hfr, (List.chain'_cons.mp hs).1, ?_⟩
            rw [interpPoints, if_pos ⟨le_of_lt hlow', hfr⟩]
          · have hgl : ((p0 :: r :: t).getLast hne) =
                ((r :: t).getLast (List.cons_ne_nil r t)) :=
              List.getLast_cons (List.cons_ne_nil r t)
            obtain ⟨p, hp, q, hq, h1, h2, h3, h4⟩ :=
              ih (List.cons_ne_nil r t) (List.chain'_cons.mp hs).2
                (not_le.mp hfr) (by rw [hgl] at hhigh; exact hhigh)
            refine ⟨p, List.mem_cons_of_mem _ hp, q,
              List.mem_cons_of_mem _ hq, h1, h2, h3, ?_⟩
            rw [interpPoints, if_neg (fun hc => absurd hc.2 hfr), h4]

/-- Evaluation of `coax_loss_points` on an already strictly sorted table, with the
defensive re-sort removed. -/
theorem coax_loss_points_sorted (pts : List (ℚ × ℚ)) (h : keySorted pts)
    (f : ℚ) :
    coax_loss_points pts f =
      match pts with
      | [] => 0
      | p0 :: rest =>
          if f ≤ p0.1 then p0.2
          else
            let lastP := (p0 :: rest).getLast (List.cons_ne_nil _ _)
            if lastP.1 ≤ f then lastP.2
            else (interpPoints (p0 :: rest) f).getD lastP.2 := by
  rw [coax_loss_points,
    sortPoints_of_sorted pts (h.imp fun _ _ hab => le_of_lt hab)]
  cases pts <;> rfl

/-- Evaluation of `coax_loss_points` on a sorted non-empty table, as the three-way branch
of the source. -/
theorem coax_loss_points_cons (p0 : ℚ × ℚ) (rest : List (ℚ × ℚ))
    (h : keySorted (p0 :: rest)) (f : ℚ) :
    coax_loss_points (p0 :: rest) f =
      if f ≤ p0.1 then p0.2
      else if ((p0 :: rest).getLast (List.cons_ne_nil p0 rest)).1 ≤ f then
        ((p0 :: rest).getLast (List.cons_ne_nil p0 rest)).2
      else (interpPoints (p0 :: rest) f).getD
        ((p0 :: rest).getLast (List.cons_ne_nil p0 rest)).2 := by
  rw [coax_loss_points,
    sortPoints_of_sorted _ (h.imp fun _ _ hab => le_of_lt hab)]

/-- Low clamp: a query at or below the minimum key returns the minimum
key's loss. -/
theorem coax_loss_points_low (p0 : ℚ × ℚ) (rest : List (ℚ × ℚ))
    (h : keySorted (p0 :: rest)) (f : ℚ) (hf : f ≤ p0.1) :
    coax_loss_points (p0 :: rest) f = p0.2 := by
  rw [coax_loss_points_cons p0 rest h, if_pos hf]

/-- High clamp: a query at or above the maximum key returns the maximum
key's loss. -/
theorem coax_loss_points_high (p0 : ℚ × ℚ) (rest : List (ℚ × ℚ))
    (h : keySorted (p0 :: rest)) (f : ℚ)
    (hf : ((p0 :: rest).getLast (List.cons_ne_nil p0 rest)).1 ≤ f) :
    coax_loss_points (p0 :: rest) f =
      ((p0 :: rest).getLast (List.cons_ne_nil p0 rest)).2 := by
  rw [coax_loss_points_cons p0 rest h]
  by_cases hle : f ≤ p0.1
  · rw [if_pos hle]
    cases rest with
    | nil => rfl
    | cons r t =>
        exact absurd (lt_of_lt_of_le (keySorted_head_lt (r :: t) p0 h _
          (List.getLast_mem (List.cons_ne_nil r t))) (le_trans hf hle))
          (lt_irrefl _)
  · rw [if_neg hle, if_pos hf]

/-- A one-entry table returns its single loss value at every query. -/
theorem coax_loss_points_single (p : ℚ × ℚ) (f : ℚ) :
    coax_loss_points [p] f = p.2 := by
  have h : keySorted [p] := List.chain'_singleton p
  rw [coax_loss_points_cons p [] h]
  by_cases hf : f ≤ p.1
  · rw [if_pos hf]
  · rw [if_neg hf]
    exact if_pos (le_of_lt (not_le.mp hf))

/-- Interior query: above the key of the first entry of an adjacent pair and
at most the key of the second, the result is the linear interpolation
between that pair's losses — inclusively at the right key, where the scan's
`f1 <= f <= f2` test (or, at the table's last key, the high clamp) returns
the same interpolated value. -/
theorem coax_loss_points_interior (A : List (ℚ × ℚ)) (p q : ℚ × ℚ)
    (B : List (ℚ × ℚ)) (hs : keySorted (A ++ p :: q :: B)) (f : ℚ)
    (h1 : p.1 < f) (h2 : f ≤ q.1) :
    coax_loss_points (A ++ p :: q :: B) f =
      p.2 + (f - p.1) / (q.1 - p.1) * (q.2 - p.2) := by
  have hApq : ∀ r ∈ A, r.1 < f := fun r hr =>
    lt_trans (keySorted_append_lt A p (q :: B) hs r hr) h1
  obtain ⟨p0, rest, hE, hp0⟩ :
      ∃ p0 rest, A ++ p :: q :: B = p0 :: rest ∧ p0.1 < f := by
    cases A with
    | nil => exact ⟨p, q :: B, rfl, h1⟩
    | cons a A' =>
        exact ⟨a, A' ++ p :: q :: B, rfl, hApq a (List.mem_cons_self a A')⟩
  have hq_mem : q ∈ p0 :: rest := hE ▸ (by simp : q ∈ A ++ p :: q :: B)
  have hsC : keySorted (p0 :: rest) := hE ▸ hs
  have hqL : q.1 ≤ ((p0 :: rest).getLast (List.cons_ne_nil p0 rest)).1 :=
    keySorted_le_getLast _ (List.cons_ne_nil p0 rest) hsC q hq_mem
  rw [hE]
  by_cases hlast : ((p0 :: rest).getLast (List.cons_ne_nil p0 rest)).1 ≤ f
  · have hfq : f = q.1 := le_antisymm h2 (le_trans hqL hlast)
    have hlq : (p0 :: rest).getLast (List.cons_ne_nil p0 rest) = q :=
      keySorted_key_inj _ hsC _
        (List.getLast_mem (List.cons_ne_nil p0 rest)) q hq_mem
        (le_antisymm (hfq ▸ hlast) hqL)
    rw [coax_loss_points_high p0 rest hsC f hlast, hlq, hfq,
      div_self (ne_of_gt (by linarith : (0 : ℚ) < q.1 - p.1))]
    ring
  · rw [coax_loss_points_cons p0 rest hsC, if_neg (not_le.mpr hp0),
      if_neg hlast]
    have hmid := interpPoints_middle A p q B f hApq h1 h2
    rw [hE] at hmid
    rw [hmid, Option.getD_some]

/-- Dispatch of `coax_loss_db_per_100ft` to the per-table body once the type
is found with a non-empty table. -/
theorem coax_loss_db_eq (db : List (String × List (ℚ × ℚ))) (ty : String)
    (pts : List (ℚ × ℚ)) (f : ℚ) (h : db.lookup ty = some pts)
    (hne : pts ≠ []) :
    coax_loss_db_per_100ft db ty f = coax_loss_points pts f := by
  simp [coax_loss_db_per_100ft, h, hne]

/-- C3: the interpolator returns 0 for an unknown coax type; on a table with
strictly ascending keys it clamps to the minimum key's loss at or below the
minimum, clamps to the maximum key's loss at or above the maximum,
interpolates `l1 + (f−f1)/(f2−f1)·(l2−l1)` between the two bracketing keys
for every query with `f1 < f ≤ f2` — covering in particular a query exactly
at an interior table key, where the source's inclusive scan returns that
key's own loss — and a one-entry table always returns that entry's loss. -/
theorem c3_interpolator :
    (∀ (db : List (String × List (ℚ × ℚ))) (ty : String) (f : ℚ),
      db.lookup ty = none → coax_loss_db_per_100ft db ty f = 0)
    ∧ (∀ (db : List (String × List (ℚ × ℚ))) (ty : String) (f : ℚ)
        (p0 : ℚ × ℚ) (rest : List (ℚ × ℚ)),
        db.lookup ty = some (p0 :: rest) → keySorted (p0 :: rest) →
        f ≤ p0.1 → coax_loss_db_per_100ft db ty f = p0.2)
    ∧ (∀ (db : List (String × List (ℚ × ℚ))) (ty : String) (f : ℚ)
        (p0 : ℚ × ℚ) (rest : List (ℚ × ℚ)),
        db.lookup ty = some (p0 :: rest) → keySorted (p0 :: rest) →
        ((p0 :: rest).getLast (List.cons_ne_nil p0 rest)).1 ≤ f →
        coax_loss_db_per_100ft db ty f =
          ((p0 :: rest).getLast (List.cons_ne_nil p0 rest)).2)
    ∧ (∀ (db : List (String × List (ℚ × ℚ))) (ty : String) (f : ℚ)
        (A : List (ℚ × ℚ)) (p q : ℚ × ℚ) (B : List (ℚ × ℚ)),
        db.lookup ty = some (A ++ p :: q :: B) →
        keySorted (A ++ p :: q :: B) → p.1 < f → f ≤ q.1 →
        coax_loss_db_per_100ft db ty f =
          p.2 + (f - p.1) / (q.1 - p.1) * (q.2 - p.2))
    ∧ (∀ (db : List (String × List (ℚ × ℚ))) (ty : String) (f : ℚ)
        (p : ℚ × ℚ), db.lookup ty = some [p] →
        coax_loss_db_per_100ft db ty f = p.2) := by
  refine ⟨fun db ty f h => ?_, fun db ty f p0 rest h hs hf => ?_,
    fun db ty f p0 rest h hs hf => ?_, fun db ty f A p q B h hs h1 h2 => ?_,
    fun db ty f p h => ?_⟩
  · simp [coax_loss_db_per_100ft, h]
  · rw [coax_loss_db_eq db ty _ f h (List.cons_ne_nil p0 rest),
      coax_loss_points_low p0 rest hs f hf]
  · rw [coax_loss_db_eq db ty _ f h (List.cons_ne_nil p0 rest),
      coax_loss_points_high p0 rest hs f hf]
  · rw [coax_loss_db_eq db ty _ f h (by simp),
      coax_loss_points_interior A p q B hs f h1 h2]
  · rw [coax_loss_db_eq db ty _ f h (List.cons_ne_nil p []),
      coax_loss_points_single p f]

/-- Witness for C3: RG-58 at 100 MHz interpolates between 50 MHz and
150 MHz, and a query exactly at the interior key 150 MHz interpolates to
that key's own loss. -/
theorem c3_witness :
    coax_loss_db_per_100ft COAX_DB "RG-58" 100 =
      (1.9 : ℚ) + (100 - 50) / (150 - 50) * (3.8 - 1.9)
    ∧ coax_loss_db_per_100ft COAX_DB "RG-58" 150 =
      (1.9 : ℚ) + (150 - 50) / (150 - 50) * (3.8 - 1.9) :=
  ⟨c3_interpolator.2.2.2.1 COAX_DB "RG-58" 100 [] (50, 1.9) (150, 3.8)
    [(450, 7.0), (900, 10.3), (1500, 13.5)] rfl
    (by unfold keySorted; norm_num [List.chain'_cons, List.chain'_singleton])
    (by norm_num) (by norm_num),
   c3_interpolator.2.2.2.1 COAX_DB "RG-58" 150 [] (50, 1.9) (150, 3.8)
    [(450, 7.0), (900, 10.3), (1500, 13.5)] rfl
    (by unfold keySorted; norm_num [List.chain'_cons, List.chain'_singleton])
    (by norm_num) (by norm_num)⟩

/-- C10: whenever the coax type has a non-empty, strictly key-sorted table,
the interpolator's result is bracketed by two of that table's loss values —
it never leaves the table's range. -/
theorem c10_loss_within_table_range :
    ∀ (db : List (String × List (ℚ × ℚ))) (ty : String)
      (pts : List (ℚ × ℚ)) (f : ℚ),
      db.lookup ty = some pts → pts ≠ [] → keySorted pts →
      ∃ lo ∈ pts.map Prod.snd, ∃ hi ∈ pts.map Prod.snd,
        lo ≤ coax_loss_db_per_100ft db ty f ∧
          coax_loss_db_per_100ft db ty f ≤ hi := by
  intro db ty pts f hlk hne hs
  rw [coax_loss_db_eq db ty pts f hlk hne]
  cases pts with
  | nil => exact absurd rfl hne
  | cons p0 rest =>
      by_cases hlow : f ≤ p0.1
      · rw [coax_loss_points_low p0 rest hs f hlow]
        exact ⟨p0.2, List.mem_map_of_mem _ (List.mem_cons_self p0 rest),
          p0.2, List.mem_map_of_mem _ (List.mem_cons_self p0 rest),
          le_rfl, le_rfl⟩
      by_cases hhigh : ((p0 :: rest).getLast (List.cons_ne_nil p0 rest)).1 ≤ f
      · rw [coax_loss_points_high p0 rest hs f hhigh]
        have hm := List.getLast_mem (List.cons_ne_nil p0 rest)
        exact ⟨_, List.mem_map_of_mem _ hm, _, List.mem_map_of_mem _ hm,
          le_rfl, le_rfl⟩
      · obtain ⟨p, hp, q, hq, hpf, hfq, hpq, hinterp⟩ :=
          interpPoints_between f (p0 :: rest) (List.cons_ne_nil p0 rest) hs
            (not_le.mp hlow) (not_le.mp hhigh)
        rw [coax_loss_points_cons p0 rest hs, if_neg hlow, if_neg hhigh,
          hinterp, Option.getD_some]
        set t := (f - p.1) / (q.1 - p.1) with ht
        have ht0 : 0 ≤ t := div_nonneg (by linarith) (by linarith)
        have ht1 : t ≤ 1 := (div_le_one (by linarith)).mpr (by linarith)
        by_cases hv : p.2 ≤ q.2
        · refine ⟨p.2, List.mem_map_of_mem _ hp, q.2,
            List.mem_map_of_mem _ hq, ?_, ?_⟩
          · nlinarith [mul_nonneg ht0 (sub_nonneg.mpr hv)]
          · nlinarith [mul_nonneg (sub_nonneg.mpr ht1) (sub_nonneg.mpr hv)]
        · have hv' : q.2 ≤ p.2 := le_of_lt (not_le.mp hv)
          refine ⟨q.2, List.mem_map_of_mem _ hq, p.2,
            List.mem_map_of_mem _ hp, ?_, ?_⟩
          · nlinarith [mul_nonneg (sub_nonneg.mpr ht1) (sub_nonneg.mpr hv')]
          · nlinarith [mul_nonneg ht0 (sub_nonneg.mpr hv')]

/-- Witness for C10: LMR-400 at 10000 MHz (clamped to the 1500 MHz entry)
stays within the table's loss range. -/
theorem c10_witness :
    ∃ lo ∈ ([(50, 0.3), (150, 0.7), (450, 1.5), (900, 2.3),
        (1500, 3.0)] : List (ℚ × ℚ)).map Prod.snd,
      ∃ hi ∈ ([(50, 0.3), (150, 0.7), (450, 1.5), (900, 2.3),
          (1500, 3.0)] : List (ℚ × ℚ)).map Prod.snd,
        lo ≤ coax_loss_db_per_100ft COAX_DB "LMR-400" 10000 ∧
          coax_loss_db_per_100ft COAX_DB "LMR-400" 10000 ≤ hi :=
  c10_loss_within_table_range COAX_DB "LMR-400"
    [(50, 0.3), (150, 0.7), (450, 1.5), (900, 2.3), (1500, 3.0)] 10000
    rfl (by simp)
    (by unfold keySorted; norm_num [List.chain'_cons, List.chain'_singleton])
